import Mathlib

/-!
Verification of the slogproto codec: a shallow embedding of the write-side
handler (attribute/group tree construction and length-prefixed framing), the
stream reader, and the filter evaluator, together with proofs about the
properties claimed of them.

Conventions of the embedding:
* Go byte slices are `List Nat` (each element intended below 256).
* `time.Time` values are modelled as `Int` counting nanoseconds since the Unix
  epoch; the zero value of `time.Time` (January 1, year 1 UTC) corresponds to
  the constant `zeroTimeNanos`, and `t.IsZero()` is `t = zeroTimeNanos`.
* `float64` payloads are carried as an opaque `Int` stand-in (the codec copies
  them verbatim, so only equality matters).
* Protobuf marshalling/unmarshalling of the `Record` message is an external
  collaborator assumed to be a bijection on the message model; nil map entries
  survive the round trip as empty `Value` messages (`PBValue.vnone`).
* Go maps are modelled as association lists with in-place update semantics
  (`insertA`); iteration order is the insertion order of the model.
-/

namespace Slogproto

/-- Unix nanoseconds of the zero `time.Time` value (January 1, year 1 UTC):
-62135596800 seconds before the epoch. -/
def zeroTimeNanos : Int := -62135596800000000000

/-- The slogproto protobuf `Level` enum. -/
inductive Level where
  | unspecified
  | info
  | warn
  | error
  | debug
deriving DecidableEq, Repr

/-- slog's numeric level constants. -/
def levelDebug : Int := -4

def levelInfo : Int := 0

def levelWarn : Int := 4

def levelError : Int := 8

/-- convertLevel from handler.go: maps a slog level to the protobuf enum,
defaulting to Info. -/
def convertLevel (l : Int) : Level :=
  if l = levelInfo then .info
  else if l = levelWarn then .warn
  else if l = levelError then .error
  else if l = levelDebug then .debug
  else .info

/-- fromPBLevel from read.go: maps the protobuf enum back to a slog level,
defaulting to Info. -/
def fromPBLevel : Level → Int
  | .info => levelInfo
  | .warn => levelWarn
  | .error => levelError
  | .debug => levelDebug
  | .unspecified => levelInfo

/-- The payload of a slog `KindAny` value.  An arbitrary Go value is recorded
by its dynamic type name and its JSON encoding (both opaque to the codec); a
decoded value holds the `anypb.Any` message produced by the reader. -/
inductive GoAny where
  | goVal (ty : String) (json : String)
  | pbAny (typeUrl : String) (payload : String)
deriving DecidableEq, Repr

/-- The slog value model (`slog.Value`): one variant per `slog.Kind`.
`lazy` models a `KindLogValuer` value whose resolution yields the wrapped
value; `emptyVal` is the zero `slog.Value` (KindAny holding nil). -/
inductive SlogValue where
  | bool (b : Bool)
  | float (x : Int)
  | int (i : Int)
  | uint (u : Nat)
  | str (s : String)
  | time (t : Int)
  | duration (d : Int)
  | group (attrs : List (String × SlogValue))
  | anyVal (a : GoAny)
  | lazy (v : SlogValue)
  | emptyVal

/-- The slogproto protobuf `Value` message.  `vnone` is a `Value` whose
`kind` oneof is unset (as produced by round-tripping a nil map entry). -/
inductive PBValue where
  | vnone
  | vbool (b : Bool)
  | vfloat (x : Int)
  | vint (i : Int)
  | vstring (s : String)
  | vtime (t : Int)
  | vduration (d : Int)
  | vuint (u : Nat)
  | vgroup (attrs : List (String × PBValue))
  | vany (typeUrl : String) (payload : String)

/-- Association-list model of a Go map: update the entry in place if the key
is present, otherwise append a fresh entry. -/
def insertA {α : Type} (l : List (String × α)) (k : String) (v : α) :
    List (String × α) :=
  match l with
  | [] => [(k, v)]
  | (k', v') :: rest => if k' = k then (k, v) :: rest else (k', v') :: insertA rest k v

/-- Keys of an association list. -/
abbrev keysOf {α : Type} (l : List (String × α)) : List String :=
  l.map Prod.fst

/-- Stand-in for `json.Marshal` applied to an `anypb.Any` message (external
collaborator; only used to keep `getValue` total on decoded Any values). -/
def anyMessageJson (typeUrl payload : String) : String :=
  typeUrl ++ ":" ++ payload

mutual

/-- getValue from handler.go: converts a `slog.Value` to a protobuf `Value`.
Returns `none` exactly when the value is a group that converted to zero
attributes.  The Go error paths (JSON marshal failure, unknown kind) are not
representable in the model, so the error result is omitted.  A nested group
entry whose own conversion is `none` is stored by Go as a nil pointer, which
the protobuf round trip turns into an empty message; the model stores
`PBValue.vnone` directly. -/
def getValue (k : String) : SlogValue → Option PBValue
  | .anyVal (.goVal ty json) => some (.vany ("go/slog/" ++ ty) json)
  | .anyVal (.pbAny u p) => some (.vany "go/slog/*anypb.Any" (anyMessageJson u p))
  | .emptyVal => some (.vany "go/slog/<nil>" "null")
  | .bool b => some (.vbool b)
  | .duration d => some (.vduration d)
  | .float x => some (.vfloat x)
  | .int i => some (.vint i)
  | .str s => some (.vstring s)
  | .time t => some (.vtime t)
  | .uint u => some (.vuint u)
  | .group as =>
    let m := getValueGroup as []
    if m.isEmpty then none else some (.vgroup m)
  | .lazy v => getValue k v

/-- The loop body of getValue's `KindGroup` case: converts each child in order
and inserts it into the accumulated map. -/
def getValueGroup : List (String × SlogValue) → List (String × PBValue) →
    List (String × PBValue)
  | [], acc => acc
  | (k', v') :: rest, acc =>
    getValueGroup rest (insertA acc k' ((getValue k' v').getD .vnone))

end

mutual

/-- fromPBValue from read.go: converts a protobuf `Value` back to a
`slog.Value`.  The Go `default` error branch is unreachable in the model
because every kind is represented. -/
def fromPBValue : PBValue → SlogValue
  | .vbool b => .bool b
  | .vfloat x => .float x
  | .vint i => .int i
  | .vstring s => .str s
  | .vtime t => .time t
  | .vduration d => .duration d
  | .vuint u => .uint u
  | .vany u p => .anyVal (.pbAny u p)
  | .vgroup as => .group (fromPBValueList as)
  | .vnone => .emptyVal

/-- The loop of fromPBValue's group case, in map iteration order. -/
def fromPBValueList : List (String × PBValue) → List (String × SlogValue)
  | [] => []
  | (k, v) :: rest => (k, fromPBValue v) :: fromPBValueList rest

end

/-- A `slog.Record` handed to the write path: time, message, level, program
counter of the call site, and the attributes added in the logging call, in
order. -/
structure SlogRecord where
  time : Int
  message : String
  level : Int
  pc : Nat
  attrs : List (String × SlogValue)

/-- A value stored in a mutable group container: either a converted protobuf
value (with `none` for a Go nil pointer) or an aliasing reference to another
mutable group container in the store. -/
inductive HeapValue where
  | val (v : Option PBValue)
  | ref (g : Nat)

/-- The heap of mutable `Value_Group.Attrs` maps created by WithGroup.
Index `g` is the container allocated `g`-th. -/
abbrev Store : Type := List (List (String × HeapValue))

/-- Write into group container `g` of the store. -/
def storeInsert (s : Store) (g : Nat) (k : String) (hv : HeapValue) : Store :=
  List.set s g (insertA ((List.getD s g [])) k hv)

/-- The write-side Handler state: accumulated attributes, configured level,
parent link, open group container (an index into the store) and its name.
The `io.Writer` sink is an external collaborator and is not modelled. -/
inductive HandlerM where
  | mk (attrs : List (String × SlogValue)) (level : Int) (parent : Option HandlerM)
      (group : Option Nat) (groupName : String)

/-- The handler's accumulated attribute list. -/
def HandlerM.attrs : HandlerM → List (String × SlogValue)
  | .mk a _ _ _ _ => a

/-- The handler's configured level. -/
def HandlerM.level : HandlerM → Int
  | .mk _ l _ _ _ => l

/-- The handler's parent link. -/
def HandlerM.parent : HandlerM → Option HandlerM
  | .mk _ _ p _ _ => p

/-- The handler's open group container, if any. -/
def HandlerM.group : HandlerM → Option Nat
  | .mk _ _ _ g _ => g

/-- The name of the handler's open group. -/
def HandlerM.groupName : HandlerM → String
  | .mk _ _ _ _ n => n

/-- NewHandler from handler.go: only the writer is set, every other field is
its zero value (level 0, no attributes, no parent, no group). -/
def NewHandler : HandlerM := .mk [] 0 none none ""

/-- Enabled from handler.go: a level is enabled iff it is at most the
handler's configured level. -/
def Enabled (h : HandlerM) (level : Int) : Bool :=
  level ≤ h.level

/-- WithAttrs from handler.go.  If a group is open, the arguments are written
into the receiver's group container in the store and the new handler shares
that container; otherwise they are appended to the new handler's attribute
list.  Returns the updated store together with the new handler. -/
def WithAttrs (s : Store) (h : HandlerM) (as : List (String × SlogValue)) :
    Store × HandlerM :=
  match h.group with
  | some g =>
    let s' := as.foldl (fun acc kv => storeInsert acc g kv.1 (.val (getValue kv.1 kv.2))) s
    (s', .mk h.attrs h.level (some h) (some g) h.groupName)
  | none => (s, .mk (h.attrs ++ as) h.level (some h) none "")

/-- WithGroup from handler.go.  An empty name returns the receiver.  Otherwise
a fresh empty group container is allocated; if the receiver's parent has an
open group, the new group is additionally registered inside the parent's
container under the given name. -/
def WithGroup (s : Store) (h : HandlerM) (name : String) : Store × HandlerM :=
  if name = "" then (s, h)
  else
    let g' := s.length
    let s1 : Store := s ++ [[]]
    let newHandler : HandlerM := .mk h.attrs h.level (some h) (some g') name
    match h.parent with
    | some p =>
      match p.group with
      | some gp => (storeInsert s1 gp name (.ref g'), newHandler)
      | none => (s1, newHandler)
    | none => (s1, newHandler)

/-- The protobuf `Record` message as built by the write path, before
marshalling: group-typed attributes may alias mutable store containers. -/
structure PBRecordH where
  time : Option Int
  message : String
  level : Level
  attrs : List (String × HeapValue)

/-- The protobuf `Record` message as seen by the reader after unmarshalling:
every value is concrete. -/
structure PBRecord where
  time : Option Int
  message : String
  level : Level
  attrs : List (String × PBValue)

/-- Tests `attr.Value.Kind() == slog.KindGroup` (a lazy value has kind
KindLogValuer, not KindGroup, even if it resolves to a group). -/
def isGroupKind : SlogValue → Bool
  | .group _ => true
  | _ => false

/-- The entries of a converted group value (empty for any other kind). -/
def groupEntries : PBValue → List (String × PBValue)
  | .vgroup as => as
  | _ => []

/-- The body of fillProtobufRecord's loop over the handler's own attributes:
an empty key is skipped, anything else is written to the record's top-level
map (with no nil check, so an empty group is written as a nil pointer). -/
def handlerAttrStep (acc : List (String × HeapValue)) (kv : String × SlogValue) :
    List (String × HeapValue) :=
  if kv.1 = "" then acc else insertA acc kv.1 (.val (getValue kv.1 kv.2))

/-- The body of fillProtobufRecord's loop over the record's own attributes
(the closure passed to `slr.Attrs`), acting on the store and the record's
top-level map.  An empty-keyed group is inlined into the top-level map (or
skipped when it converts to nil); any other empty-keyed attribute is skipped;
a nonempty-keyed attribute converting to nil is skipped; otherwise the value
goes into the open group container if the handler has one, and into the
top-level map if not. -/
def recordAttrStep (h : HandlerM) (sa : Store × List (String × HeapValue))
    (kv : String × SlogValue) : Store × List (String × HeapValue) :=
  if kv.1 = "" then
    if isGroupKind kv.2 then
      match getValue kv.1 kv.2 with
      | none => sa
      | some v =>
        (sa.1, (groupEntries v).foldl (fun acc e => insertA acc e.1 (.val (some e.2))) sa.2)
    else sa
  else
    match getValue kv.1 kv.2 with
    | none => sa
    | some v =>
      match h.group with
      | some g => (storeInsert sa.1 g kv.1 (.val (some v)), sa.2)
      | none => (sa.1, insertA sa.2 kv.1 (.val (some v)))

/-- fillProtobufRecord from handler.go.  Sets level, message and (for a
non-zero time) the timestamp; copies the handler's attributes, skipping empty
keys; folds the record's own attributes (dropping empty-keyed non-groups,
inlining empty-keyed groups into the record's top-level map, and otherwise
writing into the open group container if there is one); finally registers the
open group under its name in the parent's container or in the record, and the
parent's group in the record.  Returns the updated store and the record. -/
def fillProtobufRecord (s : Store) (h : HandlerM) (r : SlogRecord) :
    Store × PBRecordH :=
  let a0 : List (String × HeapValue) := h.attrs.foldl handlerAttrStep []
  let sa1 := r.attrs.foldl (recordAttrStep h) (s, a0)
  let sa2 : Store × List (String × HeapValue) :=
    match h.group with
    | some g =>
      match h.parent with
      | some p =>
        match p.group with
        | some gp => (storeInsert sa1.1 gp h.groupName (.ref g), sa1.2)
        | none => (sa1.1, insertA sa1.2 h.groupName (.ref g))
      | none => (sa1.1, insertA sa1.2 h.groupName (.ref g))
    | none => sa1
  let a3 : List (String × HeapValue) :=
    match h.parent with
    | some p =>
      match p.group with
      | some gp => insertA sa2.2 p.groupName (.ref gp)
      | none => sa2.2
    | none => sa2.2
  (sa2.1,
    { time := if r.time = zeroTimeNanos then none else some r.time
      message := r.message
      level := convertLevel r.level
      attrs := a3 })

/-- Handle from handler.go: a record with a zero program counter is dropped
without producing a frame; otherwise the filled protobuf record is marshalled
and written (the marshalling and the writer are external collaborators). -/
def Handle (s : Store) (h : HandlerM) (r : SlogRecord) :
    Option (Store × PBRecordH) :=
  if r.pc = 0 then none else some (fillProtobufRecord s h r)

/-- Resolution of a heap value at protobuf-marshal time: nil pointers become
empty `Value` messages and group references are serialized by value.  `fuel`
bounds the reference-chasing depth; every store reachable through the public
operations only references later containers, so `s.length + 1` suffices. -/
def resolveHV (s : Store) : Nat → HeapValue → PBValue
  | _, .val none => .vnone
  | _, .val (some v) => v
  | 0, .ref _ => .vnone
  | n + 1, .ref g => .vgroup ((List.getD s g []).map fun kv => (kv.1, resolveHV s n kv.2))

/-- The protobuf marshal/unmarshal round trip applied to a write-path record:
an external collaborator modelled as resolving every aliased group by value. -/
def marshalRecord (s : Store) (pbr : PBRecordH) : PBRecord :=
  { time := pbr.time
    message := pbr.message
    level := pbr.level
    attrs := pbr.attrs.map fun kv => (kv.1, resolveHV s (s.length + 1) kv.2) }

/-- The frame payload produced for a record by a fresh handler: fill the
protobuf record and marshal it. -/
def encodeRecord (r : SlogRecord) : PBRecord :=
  let sr := fillProtobufRecord [] NewHandler r
  marshalRecord sr.1 sr.2

/-- The conversion a decoded protobuf record undergoes inside Read before the
callback: empty keys are skipped, values are converted with fromPBValue, an
absent timestamp reads as the Unix epoch (`(*timestamppb.Timestamp)(nil).AsTime()`),
and the new record's program counter is 1. -/
def decodeRecord (pbr : PBRecord) : SlogRecord :=
  { time := pbr.time.getD 0
    message := pbr.message
    level := fromPBLevel pbr.level
    pc := 1
    attrs := (pbr.attrs.filter fun kv => kv.1 ≠ "").map fun kv => (kv.1, fromPBValue kv.2) }

/-- binary.LittleEndian.PutUint32 applied to `uint32(n)`: the four bytes of
`n mod 2^32`, least significant first. -/
def le32enc (n : Nat) : List Nat :=
  [n % 256, n / 256 % 256, n / 65536 % 256, n / 16777216 % 256]

/-- binary.LittleEndian.Uint32 applied to the first four bytes of the buffer. -/
def le32dec (l : List Nat) : Nat :=
  l.getD 0 0 + 256 * l.getD 1 0 + 65536 * l.getD 2 0 + 16777216 * l.getD 3 0

/-- The bytes Handle emits to the sink for a marshalled payload `b`: the
4-byte little-endian length prefix followed immediately by the payload
(two consecutive writes, no padding, no delimiter). -/
def handleFrame (b : List Nat) : List Nat :=
  le32enc b.length ++ b

/-- A sequence of frames followed by a tail of raw bytes. -/
def framesThen (ps : List (List Nat)) (rest : List Nat) : List Nat :=
  match ps with
  | [] => rest
  | b :: ps' => handleFrame b ++ framesThen ps' rest

/-- The external cancellation signal of a read: `none` for a context that is
never canceled, `some t` for one whose cancellation becomes visible at the
`t`-th poll of `ctx.Err()` (and stays visible, as cancellation is monotone). -/
def cancAt (c : Option Nat) (p : Nat) : Bool :=
  match c with
  | none => false
  | some t => t ≤ p

/-- The outcome of the Read loop: clean completion (`Read` returns nil), the
context's cancellation error, or an unmarshalling failure. -/
inductive ReadResult where
  | ok
  | canceled
  | unmarshalErr
deriving DecidableEq

/-- The Read loop of read.go over a fully buffered byte source, in the model.
Per iteration the context is polled twice: in the scanner's split function
before extracting a frame (poll `p`), and in the loop condition before
unmarshalling the extracted payload (poll `p + 1`); the post-loop
`ctx.Err()` check is the next poll after the loop exits.  At end of input the
split function returns no token and no error regardless of how many bytes
remain, so the scan finishes cleanly.  `um` is `proto.Unmarshal` (external);
`fn` is the per-record callback, indexed by invocation count; `acc` collects
the records already handed to the callback; `fuel` bounds the recursion and
never runs out when it starts at least `data.length + 1`. -/
def runReadAux (c : Option Nat) (um : List Nat → Option PBRecord)
    (fn : Nat → SlogRecord → Bool) :
    Nat → Nat → Nat → List SlogRecord → List Nat → List SlogRecord × ReadResult
  | 0, _, _, acc, _ => (acc, .ok)
  | n + 1, p, i, acc, data =>
    if cancAt c p then (acc, .canceled)
    else if data.length < 4 then (acc, if cancAt c (p + 1) then .canceled else .ok)
    else
      let size := le32dec (data.take 4)
      if data.length < size + 4 then (acc, if cancAt c (p + 1) then .canceled else .ok)
      else if cancAt c (p + 1) then (acc, .canceled)
      else
        match um ((data.drop 4).take size) with
        | none => (acc, .unmarshalErr)
        | some pbr =>
          let r := decodeRecord pbr
          if fn i r then
            runReadAux c um fn n (p + 2) (i + 1) (acc ++ [r]) (data.drop (size + 4))
          else (acc ++ [r], if cancAt c (p + 2) then .canceled else .ok)

/-- Read from read.go, applied to an in-memory byte stream: the records handed
to the callback, in order, together with the error outcome. -/
def runRead (c : Option Nat) (um : List Nat → Option PBRecord)
    (fn : Nat → SlogRecord → Bool) (data : List Nat) :
    List SlogRecord × ReadResult :=
  runReadAux c um fn (data.length + 1) 0 0 [] data

/-- slog.Level.String(): the canonical name of the numeric level, with a
signed offset appended when it is not one of the four named levels. -/
def levelString (l : Int) : String :=
  let delta : Int → String := fun d => if d = 0 then "" else
    if d > 0 then "+" ++ toString d else toString d
  if l < levelInfo then "DEBUG" ++ delta (l - levelDebug)
  else if l < levelWarn then "INFO" ++ delta (l - levelInfo)
  else if l < levelError then "WARN" ++ delta (l - levelWarn)
  else "ERROR" ++ delta (l - levelError)

/-- A value produced by evaluating a compiled CEL program: either a boolean or
something else (described by its dynamic type name). -/
inductive CelValue where
  | bool (b : Bool)
  | other (ty : String)

/-- The variable bindings EvalFilter hands to the compiled program: message,
canonical level name, timestamp, and the record's top-level attribute map. -/
structure EvalEnv where
  msg : String
  level : String
  time : Int
  attrs : List (String × SlogValue)

/-- A compiled CEL program (external artifact of CompileFilter): a pure
function from the variable bindings to a result or an evaluation error. -/
def CelProgram : Type := EvalEnv → Except String CelValue

/-- EvalFilter from filter.go.  A nil program returns `(false, no error)`.
Otherwise the attribute map is built from the record, the program is
evaluated, evaluation errors are returned, a non-boolean result is an error,
and a boolean result is returned as the match outcome. -/
def EvalFilter (prog : Option CelProgram) (r : SlogRecord) : Bool × Option String :=
  match prog with
  | none => (false, none)
  | some p =>
    let attrsMap := r.attrs.foldl (fun acc kv => insertA acc kv.1 kv.2) []
    match p ⟨r.message, levelString r.level, r.time, attrsMap⟩ with
    | .error e => (false, some ("error evaluating program: " ++ e))
    | .ok (.bool b) => (b, none)
    | .ok (.other ty) => (false, some ("invalid filter expression output type: " ++ ty))

/-- Distinctness of the keys of an association list, as a boolean. -/
def nodupKeys {α : Type} : List (String × α) → Bool
  | [] => true
  | (k, _) :: rest => !(rest.any fun kv => kv.1 == k) && nodupKeys rest

mutual

/-- A value tree is round-trip friendly when it only uses the scalar kinds
that the codec maps one-to-one, every group is non-empty with distinct keys,
and it contains no Any values, no lazy values and no zero values. -/
def goodVal : SlogValue → Bool
  | .bool _ => true
  | .float _ => true
  | .int _ => true
  | .uint _ => true
  | .str _ => true
  | .time _ => true
  | .duration _ => true
  | .anyVal _ => false
  | .lazy _ => false
  | .emptyVal => false
  | .group as => !as.isEmpty && nodupKeys as && goodValList as

/-- All values of an attribute list are round-trip friendly. -/
def goodValList : List (String × SlogValue) → Bool
  | [] => true
  | (_, v) :: rest => goodVal v && goodValList rest

end

/-- The result of getValue's group-conversion loop when no key collides: each
child converted in order, with nil conversions kept as `vnone`. -/
def getValueRaw (as : List (String × SlogValue)) : List (String × PBValue) :=
  as.map fun kv => (kv.1, (getValue kv.1 kv.2).getD .vnone)

theorem insertA_of_not_mem {α : Type} {l : List (String × α)} {k : String} (v : α)
    (h : k ∉ keysOf l) : insertA l k v = l ++ [(k, v)] := by
  induction l with
  | nil => rfl
  | cons kv rest ih =>
    obtain ⟨k', v'⟩ := kv
    simp only [keysOf, List.map_cons, List.mem_cons] at h
    push_neg at h
    simp only [insertA, if_neg (Ne.symm h.1)]
    rw [ih (by simpa [keysOf] using h.2)]
    rfl

theorem keysOf_append {α : Type} (l l' : List (String × α)) :
    keysOf (l ++ l') = keysOf l ++ keysOf l' := by
  simp [keysOf]

theorem keysOf_getValueRaw (as : List (String × SlogValue)) :
    keysOf (getValueRaw as) = keysOf as := by
  simp [keysOf, getValueRaw]

theorem nodupKeys_cons {α : Type} {k : String} {v : α} {rest : List (String × α)}
    (h : nodupKeys ((k, v) :: rest) = true) :
    (∀ kv ∈ rest, kv.1 ≠ k) ∧ nodupKeys rest = true := by
  simp only [nodupKeys, Bool.and_eq_true, Bool.not_eq_true', List.any_eq_false,
    beq_iff_eq] at h
  exact ⟨fun kv hm => h.1 kv hm, h.2⟩

theorem getValueGroup_eq_raw (as : List (String × SlogValue)) :
    ∀ acc : List (String × PBValue), nodupKeys as = true →
      (∀ k ∈ keysOf as, k ∉ keysOf acc) →
      getValueGroup as acc = acc ++ getValueRaw as := by
  induction as with
  | nil => intro acc _ _; simp [getValueGroup, getValueRaw]
  | cons kv rest ih =>
    intro acc hnd hdisj
    obtain ⟨k, v⟩ := kv
    obtain ⟨hne, hnd'⟩ := nodupKeys_cons hnd
    have hk : k ∉ keysOf acc := hdisj k (by simp [keysOf])
    simp only [getValueGroup]
    rw [insertA_of_not_mem _ hk]
    rw [ih (acc ++ [(k, (getValue k v).getD .vnone)]) hnd' ?_]
    · simp [getValueRaw]
    · intro k' hk'
      rw [keysOf_append]
      simp only [List.mem_append]
      rintro (hmem | hmem)
      · exact hdisj k' (by simp [keysOf]; right; simpa [keysOf] using hk') hmem
      · simp [keysOf] at hmem
        subst hmem
        simp only [keysOf, List.map_cons, List.mem_map] at hk'
        obtain ⟨kv', hkv', hkeq⟩ := hk'
        exact hne kv' hkv' hkeq

theorem fromPBValueList_eq_map (l : List (String × PBValue)) :
    fromPBValueList l = l.map fun kv => (kv.1, fromPBValue kv.2) := by
  induction l with
  | nil => rfl
  | cons kv rest ih => simp [fromPBValueList, ih]

mutual

theorem roundtrip_val (k : String) (v : SlogValue) (h : goodVal v = true) :
    ∃ pv, getValue k v = some pv ∧ fromPBValue pv = v := by
  cases v with
  | bool b => exact ⟨_, rfl, rfl⟩
  | float x => exact ⟨_, rfl, rfl⟩
  | int i => exact ⟨_, rfl, rfl⟩
  | uint u => exact ⟨_, rfl, rfl⟩
  | str s => exact ⟨_, rfl, rfl⟩
  | time t => exact ⟨_, rfl, rfl⟩
  | duration d => exact ⟨_, rfl, rfl⟩
  | anyVal a => simp [goodVal] at h
  | lazy v' => simp [goodVal] at h
  | emptyVal => simp [goodVal] at h
  | group as =>
    simp only [goodVal, Bool.and_eq_true, Bool.not_eq_true'] at h
    obtain ⟨⟨hne, hnd⟩, hgl⟩ := h
    have hraw := getValueGroup_eq_raw as [] hnd (by simp [keysOf])
    refine ⟨.vgroup (getValueRaw as), ?_, ?_⟩
    · simp only [getValue, hraw, List.nil_append]
      have : (getValueRaw as).isEmpty = false := by
        cases as with
        | nil => simp at hne
        | cons kv rest => simp [getValueRaw]
      simp [this]
    · simp only [fromPBValue]
      congr 1
      exact roundtrip_list as hgl

theorem roundtrip_list (as : List (String × SlogValue)) (h : goodValList as = true) :
    fromPBValueList (getValueRaw as) = as := by
  cases as with
  | nil => rfl
  | cons kv rest =>
    obtain ⟨k, v⟩ := kv
    simp only [goodValList, Bool.and_eq_true] at h
    obtain ⟨pv, hg, hf⟩ := roundtrip_val k v h.1
    simp only [getValueRaw, List.map_cons, fromPBValueList, hg, Option.getD_some, hf]
    have := roundtrip_list rest h.2
    simp only [getValueRaw] at this
    rw [this]

end

theorem goodValList_mem {as : List (String × SlogValue)} (h : goodValList as = true) :
    ∀ kv ∈ as, goodVal kv.2 = true := by
  induction as with
  | nil => simp
  | cons kv rest ih =>
    obtain ⟨k, v⟩ := kv
    simp only [goodValList, Bool.and_eq_true] at h
    intro kv' hm
    rcases List.mem_cons.mp hm with rfl | hm'
    · exact h.1
    · exact ih h.2 kv' hm'

theorem resolveHV_val (s : Store) (f : Nat) (o : Option PBValue) :
    resolveHV s f (.val o) = o.getD .vnone := by
  cases o <;> cases f <;> rfl

theorem NewHandler_attrs : NewHandler.attrs = [] := rfl

theorem NewHandler_group : NewHandler.group = none := rfl

theorem NewHandler_parent : NewHandler.parent = none := rfl

theorem recordFold_top (h : HandlerM) (hg : h.group = none) :
    ∀ (as : List (String × SlogValue)) (s : Store) (acc : List (String × HeapValue)),
      (∀ kv ∈ as, kv.1 ≠ "" ∧ (getValue kv.1 kv.2).isSome = true) →
      nodupKeys as = true →
      (∀ k ∈ keysOf as, k ∉ keysOf acc) →
      as.foldl (recordAttrStep h) (s, acc) =
        (s, acc ++ as.map fun kv => (kv.1, HeapValue.val (getValue kv.1 kv.2))) := by
  intro as
  induction as with
  | nil => intro s acc _ _ _; simp
  | cons kv rest ih =>
    intro s acc hall hnd hdisj
    obtain ⟨k, v⟩ := kv
    obtain ⟨hne, hnd'⟩ := nodupKeys_cons hnd
    obtain ⟨hk, hsome⟩ := hall (k, v) (List.mem_cons_self _ _)
    obtain ⟨pv, hpv⟩ := Option.isSome_iff_exists.mp hsome
    have hstep : recordAttrStep h (s, acc) (k, v) =
        (s, acc ++ [(k, HeapValue.val (getValue k v))]) := by
      simp only [recordAttrStep, if_neg hk, hpv, hg]
      rw [insertA_of_not_mem _ (hdisj k (by simp [keysOf]))]
    have hrest : ∀ kv' ∈ rest, kv'.1 ≠ "" ∧ (getValue kv'.1 kv'.2).isSome = true :=
      fun kv' hm => hall kv' (List.mem_cons_of_mem _ hm)
    have hdisj' : ∀ k' ∈ keysOf rest,
        k' ∉ keysOf (acc ++ [(k, HeapValue.val (getValue k v))]) := by
      intro k' hk'
      rw [keysOf_append]
      intro hmem
      rcases List.mem_append.mp hmem with hmem' | hmem'
      · have hin : k' ∈ keysOf ((k, v) :: rest) := by
          simp only [keysOf, List.map_cons]
          exact List.mem_cons_of_mem _ hk'
        exact hdisj k' hin hmem'
      · have hkk : k' = k := by simpa [keysOf] using hmem'
        subst hkk
        obtain ⟨kv', hkv', hkeq⟩ := List.mem_map.mp hk'
        exact hne kv' hkv' hkeq
    simp only [List.foldl_cons, hstep]
    rw [ih s (acc ++ [(k, HeapValue.val (getValue k v))]) hrest hnd' hdisj']
    simp

theorem encodeRecord_eq (r : SlogRecord)
    (hkeys : ∀ kv ∈ r.attrs, kv.1 ≠ "")
    (hnd : nodupKeys r.attrs = true)
    (hgood : goodValList r.attrs = true) :
    encodeRecord r =
      { time := if r.time = zeroTimeNanos then none else some r.time
        message := r.message
        level := convertLevel r.level
        attrs := getValueRaw r.attrs } := by
  have hall : ∀ kv ∈ r.attrs, kv.1 ≠ "" ∧ (getValue kv.1 kv.2).isSome = true := by
    intro kv hm
    obtain ⟨pv, hpv, -⟩ := roundtrip_val kv.1 kv.2 (goodValList_mem hgood kv hm)
    exact ⟨hkeys kv hm, by simp [hpv]⟩
  have hfold := recordFold_top NewHandler NewHandler_group r.attrs [] []
    hall hnd (by simp [keysOf])
  simp only [encodeRecord, fillProtobufRecord, NewHandler_attrs, NewHandler_group,
    NewHandler_parent, List.foldl_nil]
  rw [hfold]
  simp only [marshalRecord, List.nil_append, List.map_map]
  congr 1
  simp only [getValueRaw]
  exact List.map_congr_left fun kv _ => by simp [Function.comp, resolveHV_val]

theorem level_roundtrip (l : Int)
    (h : l = levelDebug ∨ l = levelInfo ∨ l = levelWarn ∨ l = levelError) :
    fromPBLevel (convertLevel l) = l := by
  rcases h with rfl | rfl | rfl | rfl <;> rfl

/-- Claim C1 (counterexample): the write/read round trip does not reproduce
every finite attribute tree of supported kinds.  A record carrying a named
empty group loses that attribute entirely: the write path drops an empty
group even though its key is non-empty, so the decoded record has no key
"g" while the original does. -/
theorem c1_claim_counterexample :
    List.lookup "g" (SlogRecord.mk 5 "m" 0 3 [("g", SlogValue.group [])]).attrs
        = some (SlogValue.group []) ∧
      List.lookup "g"
        (decodeRecord (encodeRecord
          (SlogRecord.mk 5 "m" 0 3 [("g", SlogValue.group [])]))).attrs = none :=
  ⟨rfl, rfl⟩

/-- Claim C1 (amended): for every record whose attribute tree uses only the
one-to-one value kinds (no Any, no unresolved lazy values, no zero values),
has no empty group anywhere, has distinct keys at every level and no empty
top-level key, and whose level is one of the four named levels, decoding the
encoded frame reproduces the message, the level, and the attribute keys and
values (groups recursively); a non-zero timestamp is reproduced exactly,
while a zero-value timestamp on write yields an absent timestamp field in
the frame handed to the reader. -/
theorem c1_roundtrip_amended (r : SlogRecord)
    (hkeys : ∀ kv ∈ r.attrs, kv.1 ≠ "")
    (hnd : nodupKeys r.attrs = true)
    (hgood : goodValList r.attrs = true)
    (hlevel : r.level = levelDebug ∨ r.level = levelInfo ∨ r.level = levelWarn ∨
      r.level = levelError) :
    (decodeRecord (encodeRecord r)).message = r.message ∧
      (decodeRecord (encodeRecord r)).level = r.level ∧
      (decodeRecord (encodeRecord r)).attrs = r.attrs ∧
      (r.time ≠ zeroTimeNanos → (decodeRecord (encodeRecord r)).time = r.time) ∧
      (r.time = zeroTimeNanos → (encodeRecord r).time = none) := by
  rw [encodeRecord_eq r hkeys hnd hgood]
  refine ⟨rfl, level_roundtrip _ hlevel, ?_, ?_, ?_⟩
  · show ((getValueRaw r.attrs).filter fun kv => kv.1 ≠ "").map
        (fun kv => (kv.1, fromPBValue kv.2)) = r.attrs
    have hfilter : (getValueRaw r.attrs).filter (fun kv => kv.1 ≠ "") = getValueRaw r.attrs := by
      refine List.filter_eq_self.mpr fun kv hm => ?_
      simp only [getValueRaw, List.mem_map] at hm
      obtain ⟨kv', hkv', hkeq⟩ := hm
      simpa [← hkeq] using hkeys kv' hkv'
    rw [hfilter, ← fromPBValueList_eq_map, roundtrip_list r.attrs hgood]
  · intro hne
    show (if r.time = zeroTimeNanos then none else some r.time).getD 0 = r.time
    rw [if_neg hne]
    rfl
  · intro hz
    show (if r.time = zeroTimeNanos then none else some r.time) = none
    rw [if_pos hz]

/-- Witness for the amended claim C1 at a concrete record. -/
theorem c1_roundtrip_amended_witness :
    (∀ kv ∈ (SlogRecord.mk 5 "m" 4 2 [("a", SlogValue.int 1)]).attrs, kv.1 ≠ "") ∧
      nodupKeys (SlogRecord.mk 5 "m" 4 2 [("a", SlogValue.int 1)]).attrs = true ∧
      goodValList (SlogRecord.mk 5 "m" 4 2 [("a", SlogValue.int 1)]).attrs = true ∧
      ((decodeRecord (encodeRecord (SlogRecord.mk 5 "m" 4 2 [("a", SlogValue.int 1)]))).message
          = "m" ∧
        (decodeRecord (encodeRecord (SlogRecord.mk 5 "m" 4 2 [("a", SlogValue.int 1)]))).level
          = 4 ∧
        (decodeRecord (encodeRecord (SlogRecord.mk 5 "m" 4 2 [("a", SlogValue.int 1)]))).attrs
          = [("a", SlogValue.int 1)] ∧
        ((5 : Int) ≠ zeroTimeNanos →
          (decodeRecord (encodeRecord (SlogRecord.mk 5 "m" 4 2 [("a", SlogValue.int 1)]))).time
            = 5) ∧
        ((5 : Int) = zeroTimeNanos →
          (encodeRecord (SlogRecord.mk 5 "m" 4 2 [("a", SlogValue.int 1)])).time = none)) :=
  ⟨by decide, by decide, by decide,
    c1_roundtrip_amended (SlogRecord.mk 5 "m" 4 2 [("a", SlogValue.int 1)])
      (by decide) (by decide) (by decide) (Or.inr (Or.inr (Or.inl rfl)))⟩

/-- Claim C2 (counterexample): evaluating the filter with an absent (nil)
compiled program does not select the record: at this concrete record,
EvalFilter returns `false` (exclude), not `true` (include). -/
theorem c2_claim_counterexample :
    EvalFilter none (SlogRecord.mk 5 "m" 0 1 [("a", SlogValue.str "b")]) = (false, none) ∧
      (EvalFilter none (SlogRecord.mk 5 "m" 0 1 [("a", SlogValue.str "b")])).1 ≠ true :=
  ⟨rfl, by decide⟩

/-- Claim C2 (amended): for every record, evaluating the filter with an
absent (nil) compiled program returns `false` (the record is excluded) and
no error. -/
theorem c2_nil_program_amended (r : SlogRecord) : EvalFilter none r = (false, none) := rfl

/-- Claim C10: Enabled returns true exactly when the queried level is at most
the handler's configured level, a freshly constructed handler's level is the
zero (Info) level, and consequently a fresh handler enables debug and info
but not warn and error. -/
theorem c10_enabled_level :
    (∀ (h : HandlerM) (l : Int), Enabled h l = true ↔ l ≤ h.level) ∧
      NewHandler.level = 0 ∧
      Enabled NewHandler levelDebug = true ∧
      Enabled NewHandler levelInfo = true ∧
      Enabled NewHandler levelWarn = false ∧
      Enabled NewHandler levelError = false := by
  refine ⟨fun h l => ?_, rfl, by decide, by decide, by decide, by decide⟩
  simp [Enabled]

/-- Claim C8: a record with a non-zero program counter and the zero-value
timestamp is still emitted as a frame, and the serialized record's timestamp
field is absent. -/
theorem c8_zero_time_emitted (s : Store) (h : HandlerM) (r : SlogRecord)
    (hpc : r.pc ≠ 0) (ht : r.time = zeroTimeNanos) :
    Handle s h r = some (fillProtobufRecord s h r) ∧
      (fillProtobufRecord s h r).2.time = none := by
  constructor
  · simp [Handle, hpc]
  · simp [fillProtobufRecord, ht]

/-- Witness for claim C8 at a concrete zero-time record. -/
theorem c8_zero_time_emitted_witness :
    (SlogRecord.mk zeroTimeNanos "m" 0 1 []).pc ≠ 0 ∧
      (SlogRecord.mk zeroTimeNanos "m" 0 1 []).time = zeroTimeNanos ∧
      (Handle [] NewHandler (SlogRecord.mk zeroTimeNanos "m" 0 1 [])
          = some (fillProtobufRecord [] NewHandler (SlogRecord.mk zeroTimeNanos "m" 0 1 [])) ∧
        (fillProtobufRecord [] NewHandler (SlogRecord.mk zeroTimeNanos "m" 0 1 [])).2.time
          = none) :=
  ⟨by decide, rfl,
    c8_zero_time_emitted [] NewHandler (SlogRecord.mk zeroTimeNanos "m" 0 1 [])
      (by decide) rfl⟩

/-- Claim C5: the bytes emitted to the sink for a marshalled payload are
exactly a 4-byte little-endian unsigned integer equal to the payload's byte
length, followed immediately by the payload, with no padding and no trailing
delimiter. -/
theorem c5_frame_layout (b : List Nat) (h : b.length < 2 ^ 32) :
    handleFrame b = le32enc b.length ++ b ∧
      (le32enc b.length).length = 4 ∧
      le32dec (handleFrame b) = b.length := by
  refine ⟨rfl, rfl, ?_⟩
  show b.length % 256 + 256 * (b.length / 256 % 256) + 65536 * (b.length / 65536 % 256) +
      16777216 * (b.length / 16777216 % 256) = b.length
  omega

/-- Witness for claim C5 at a concrete two-byte payload. -/
theorem c5_frame_layout_witness :
    ([7, 8] : List Nat).length < 2 ^ 32 ∧
      (handleFrame [7, 8] = le32enc 2 ++ [7, 8] ∧
        (le32enc ([7, 8] : List Nat).length).length = 4 ∧
        le32dec (handleFrame [7, 8]) = 2) :=
  ⟨by decide, c5_frame_layout [7, 8] (by decide)⟩

/-- Claim C4 (counterexample): deriving a new handler does mutate state
reachable from existing handlers.  A handler with an open group (container 0,
initially empty) has that container filled in by a WithAttrs derivation. -/
theorem c4_claim_counterexample :
    (WithGroup [] NewHandler "G").2.group = some 0 ∧
      (WithGroup [] NewHandler "G").1.getD 0 [] = [] ∧
      (WithAttrs (WithGroup [] NewHandler "G").1 (WithGroup [] NewHandler "G").2
          [("x", SlogValue.str "y")]).1.getD 0 []
        = [("x", HeapValue.val (some (PBValue.vstring "y")))] ∧
      (WithAttrs (WithGroup [] NewHandler "G").1 (WithGroup [] NewHandler "G").2
          [("x", SlogValue.str "y")]).1.getD 0 []
        ≠ (WithGroup [] NewHandler "G").1.getD 0 [] :=
  ⟨rfl, rfl, rfl, fun hc => absurd (congrArg List.length hc) (by decide)⟩

/-- Claim C4 (amended): WithAttrs leaves the store untouched when the
receiver has no open group, and WithGroup never modifies an existing group
container when the receiver's parent has no open group (it only appends a
fresh container); but, per the counterexample, WithAttrs with an open group
writes into the receiver's container, and WithGroup under an open
grandparent group registers the new group inside the parent's container. -/
theorem c4_derivation_amended :
    (∀ (s : Store) (h : HandlerM) (as : List (String × SlogValue)),
        h.group = none → (WithAttrs s h as).1 = s) ∧
      (∀ (s : Store) (h : HandlerM) (name : String) (i : Nat), i < s.length →
        (∀ p, h.parent = some p → p.group = none) →
        (WithGroup s h name).1.getD i [] = s.getD i []) ∧
      (∀ (s : Store) (h : HandlerM) (name : String),
        s.length ≤ (WithGroup s h name).1.length) := by
  refine ⟨fun s h as hg => ?_, fun s h name i hi hp => ?_, fun s h name => ?_⟩
  · simp [WithAttrs, hg]
  · rw [WithGroup]
    split
    · rfl
    · have happ : (s ++ ([[]] : Store)).getD i [] = s.getD i [] :=
        List.getD_append _ _ _ _ hi
      cases hpar : h.parent with
      | none => simpa [hpar] using happ
      | some p =>
        have hpg : p.group = none := hp p hpar
        simp only [hpar, hpg]
        exact happ
  · rw [WithGroup]
    split
    · exact le_rfl
    · cases hpar : h.parent with
      | none => simp
      | some p =>
        cases hpg : p.group with
        | none => simp [hpg]
        | some gp =>
          simp only [hpar, hpg, storeInsert]
          rw [List.length_set]
          simp

/-- Witness for the amended claim C4 at concrete stores and handlers. -/
theorem c4_derivation_amended_witness :
    (WithAttrs [] NewHandler [("a", SlogValue.str "b")]).1 = [] ∧
      ((0 : Nat) < ([[("k", HeapValue.val none)]] : Store).length ∧
        (WithGroup [[("k", HeapValue.val none)]] NewHandler "G").1.getD 0 []
          = ([[("k", HeapValue.val none)]] : Store).getD 0 []) ∧
      ([[("k", HeapValue.val none)]] : Store).length ≤
        (WithGroup [[("k", HeapValue.val none)]] NewHandler "G").1.length :=
  ⟨c4_derivation_amended.1 [] NewHandler [("a", SlogValue.str "b")] rfl,
    ⟨by decide,
      c4_derivation_amended.2.1 [[("k", HeapValue.val none)]] NewHandler "G" 0
        (by decide) (fun p hp => by simp [NewHandler_parent] at hp)⟩,
    c4_derivation_amended.2.2 [[("k", HeapValue.val none)]] NewHandler "G"⟩

theorem recordAttrStep_group_eq (h₁ h₂ : HandlerM) (hg : h₁.group = h₂.group) :
    recordAttrStep h₁ = recordAttrStep h₂ := by
  funext sa kv
  simp only [recordAttrStep, hg]

theorem inlineFold_eq (h : HandlerM) (hg : h.group = none) :
    ∀ (cs : List (String × SlogValue)) (sa : Store × List (String × HeapValue)),
      (∀ kv ∈ cs, kv.1 ≠ "" ∧ (getValue kv.1 kv.2).isSome = true) →
      (sa.1, (getValueRaw cs).foldl
          (fun acc e => insertA acc e.1 (HeapValue.val (some e.2))) sa.2)
        = cs.foldl (recordAttrStep h) sa := by
  intro cs
  induction cs with
  | nil => intro sa _; simp [getValueRaw]
  | cons kv rest ih =>
    intro sa hall
    obtain ⟨k, v⟩ := kv
    obtain ⟨hk, hsome⟩ := hall (k, v) (List.mem_cons_self _ _)
    obtain ⟨pv, hpv⟩ := Option.isSome_iff_exists.mp hsome
    have hstep : recordAttrStep h sa (k, v) =
        (sa.1, insertA sa.2 k (HeapValue.val (some pv))) := by
      simp only [recordAttrStep, if_neg hk, hpv, hg]
    simp only [getValueRaw, List.map_cons, List.foldl_cons, hstep, hpv, Option.getD_some]
    have := ih (sa.1, insertA sa.2 k (HeapValue.val (some pv)))
      (fun kv' hm => hall kv' (List.mem_cons_of_mem _ hm))
    simpa [getValueRaw] using this

/-- Claim C7 (counterexample): an attribute accumulated on the handler (via
WithAttrs) whose key is the empty string and whose value is a non-empty group
is not inlined — it is dropped: the serialized record has no attributes at
all, although the group converts to a non-empty protobuf group. -/
theorem c7_claim_counterexample :
    (fillProtobufRecord []
        (HandlerM.mk [("", SlogValue.group [("c", SlogValue.str "d")])] 0 none none "")
        (SlogRecord.mk 5 "m" 0 1 [])).2.attrs = [] ∧
      getValue "" (SlogValue.group [("c", SlogValue.str "d")])
        = some (PBValue.vgroup [("c", PBValue.vstring "d")]) :=
  ⟨rfl, rfl⟩

/-- Claim C7 (amended), about fillProtobufRecord's empty-key policy:
(1) among the attributes of the log call itself, an empty-keyed non-group
attribute is dropped silently; (2) for a handler without an open group, an
empty-keyed group attribute of the call whose children have non-empty
distinct keys and convert without dropping is inlined: the record is the
same as if the group's children had been passed directly in its place (in
particular no key named after the group is added, and an empty group
contributes nothing); (3) an empty-keyed attribute accumulated on the
handler is always dropped, even when its value is a non-empty group. -/
theorem c7_empty_key_amended :
    (∀ (s : Store) (h : HandlerM) (r : SlogRecord)
        (pre post : List (String × SlogValue)) (v : SlogValue),
        isGroupKind v = false →
        fillProtobufRecord s h { r with attrs := pre ++ ("", v) :: post } =
          fillProtobufRecord s h { r with attrs := pre ++ post }) ∧
      (∀ (s : Store) (h : HandlerM) (r : SlogRecord)
        (pre post cs : List (String × SlogValue)),
        h.group = none →
        (∀ kv ∈ cs, kv.1 ≠ "" ∧ (getValue kv.1 kv.2).isSome = true) →
        nodupKeys cs = true →
        fillProtobufRecord s h { r with attrs := pre ++ ("", SlogValue.group cs) :: post } =
          fillProtobufRecord s h { r with attrs := pre ++ (cs ++ post) }) ∧
      (∀ (s : Store) (r : SlogRecord) (attrs1 attrs2 : List (String × SlogValue))
        (lvl : Int) (par : Option HandlerM) (grp : Option Nat) (gn : String)
        (v : SlogValue),
        fillProtobufRecord s (.mk (attrs1 ++ ("", v) :: attrs2) lvl par grp gn) r =
          fillProtobufRecord s (.mk (attrs1 ++ attrs2) lvl par grp gn) r) := by
  refine ⟨fun s h r pre post v hv => ?_, fun s h r pre post cs hg hall hnd => ?_,
    fun s r attrs1 attrs2 lvl par grp gn v => ?_⟩
  · have hskip : ∀ sa : Store × List (String × HeapValue),
        recordAttrStep h sa ("", v) = sa := by
      intro sa
      simp [recordAttrStep, hv]
    simp only [fillProtobufRecord, List.foldl_append, List.foldl_cons, hskip]
  · have hmid : ∀ sa : Store × List (String × HeapValue),
        recordAttrStep h sa ("", SlogValue.group cs) = cs.foldl (recordAttrStep h) sa := by
      intro sa
      cases cs with
      | nil =>
        simp [recordAttrStep, isGroupKind, getValue, getValueGroup]
      | cons kv rest =>
        have hraw := getValueGroup_eq_raw (kv :: rest) [] hnd (by simp [keysOf])
        have hgv : getValue "" (SlogValue.group (kv :: rest))
            = some (.vgroup (getValueRaw (kv :: rest))) := by
          simp only [getValue, hraw, List.nil_append]
          have : (getValueRaw (kv :: rest)).isEmpty = false := by simp [getValueRaw]
          simp [this]
        simp only [recordAttrStep, if_pos rfl, isGroupKind, if_pos rfl, hgv, groupEntries]
        exact inlineFold_eq h hg (kv :: rest) sa hall
    simp only [fillProtobufRecord, List.foldl_append, List.foldl_cons, hmid]
  · have hskip : ∀ acc : List (String × HeapValue),
        handlerAttrStep acc ("", v) = acc := by
      intro acc
      simp [handlerAttrStep]
    have hcongr : recordAttrStep (HandlerM.mk (attrs1 ++ ("", v) :: attrs2) lvl par grp gn)
        = recordAttrStep (HandlerM.mk (attrs1 ++ attrs2) lvl par grp gn) :=
      recordAttrStep_group_eq _ _ rfl
    simp only [fillProtobufRecord, HandlerM.attrs, HandlerM.group, HandlerM.parent,
      HandlerM.groupName, List.foldl_append, List.foldl_cons, hskip, hcongr]

/-- Witness for the amended claim C7 at concrete records and handlers. -/
theorem c7_empty_key_amended_witness :
    (isGroupKind (SlogValue.str "x") = false ∧
      fillProtobufRecord [] NewHandler
          (SlogRecord.mk 5 "m" 0 1 ([("a", SlogValue.str "b")] ++ ("", SlogValue.str "x")
            :: [("e", SlogValue.str "f")])) =
        fillProtobufRecord [] NewHandler
          (SlogRecord.mk 5 "m" 0 1 ([("a", SlogValue.str "b")] ++ [("e", SlogValue.str "f")]))) ∧
      (NewHandler.group = none ∧
        fillProtobufRecord [] NewHandler
            (SlogRecord.mk 5 "m" 0 1 ([("a", SlogValue.str "b")] ++
              ("", SlogValue.group [("c", SlogValue.str "d")]) :: [("e", SlogValue.str "f")])) =
          fillProtobufRecord [] NewHandler
            (SlogRecord.mk 5 "m" 0 1 ([("a", SlogValue.str "b")] ++
              ([("c", SlogValue.str "d")] ++ [("e", SlogValue.str "f")])))) ∧
      fillProtobufRecord []
          (HandlerM.mk ([] ++ ("", SlogValue.group [("c", SlogValue.str "d")]) :: []) 0
            none none "") (SlogRecord.mk 5 "m" 0 1 []) =
        fillProtobufRecord [] (HandlerM.mk ([] ++ []) 0 none none "")
          (SlogRecord.mk 5 "m" 0 1 []) :=
  ⟨⟨rfl, by
      have h1 := c7_empty_key_amended.1 [] NewHandler (SlogRecord.mk 5 "m" 0 1 [])
        [("a", SlogValue.str "b")] [("e", SlogValue.str "f")] (SlogValue.str "x") rfl
      exact h1⟩,
    ⟨rfl, by
      have h2 := c7_empty_key_amended.2.1 [] NewHandler (SlogRecord.mk 5 "m" 0 1 [])
        [("a", SlogValue.str "b")] [("e", SlogValue.str "f")] [("c", SlogValue.str "d")]
        rfl (by decide) (by decide)
      exact h2⟩,
    c7_empty_key_amended.2.2 [] (SlogRecord.mk 5 "m" 0 1 []) [] [] 0 none none ""
      (SlogValue.group [("c", SlogValue.str "d")])⟩

theorem le32_roundtrip (n : Nat) (h : n < 2 ^ 32) : le32dec (le32enc n) = n := by
  show n % 256 + 256 * (n / 256 % 256) + 65536 * (n / 65536 % 256) +
      16777216 * (n / 16777216 % 256) = n
  omega

theorem cancAt_none (p : Nat) : cancAt none p = false := rfl

theorem cancAt_some (t p : Nat) : cancAt (some t) p = decide (t ≤ p) := rfl

theorem runReadAux_succ (c : Option Nat) (um : List Nat → Option PBRecord)
    (fn : Nat → SlogRecord → Bool) (n p i : Nat) (acc : List SlogRecord)
    (data : List Nat) :
    runReadAux c um fn (n + 1) p i acc data =
      if cancAt c p then (acc, .canceled)
      else if data.length < 4 then (acc, if cancAt c (p + 1) then .canceled else .ok)
      else
        let size := le32dec (data.take 4)
        if data.length < size + 4 then (acc, if cancAt c (p + 1) then .canceled else .ok)
        else if cancAt c (p + 1) then (acc, .canceled)
        else
          match um ((data.drop 4).take size) with
          | none => (acc, .unmarshalErr)
          | some pbr =>
            let r := decodeRecord pbr
            if fn i r then
              runReadAux c um fn n (p + 2) (i + 1) (acc ++ [r]) (data.drop (size + 4))
            else (acc ++ [r], if cancAt c (p + 2) then .canceled else .ok) := rfl

theorem runReadAux_fuel (c : Option Nat) (um : List Nat → Option PBRecord)
    (fn : Nat → SlogRecord → Bool) :
    ∀ (n m p i : Nat) (acc : List SlogRecord) (data : List Nat),
      data.length < n → data.length < m →
      runReadAux c um fn n p i acc data = runReadAux c um fn m p i acc data := by
  intro n
  induction n with
  | zero => intro m p i acc data hn _; exact absurd hn (Nat.not_lt_zero _)
  | succ n' ih =>
    intro m p i acc data hn hm
    cases m with
    | zero => exact absurd hm (Nat.not_lt_zero _)
    | succ m' =>
      rw [runReadAux_succ, runReadAux_succ]
      by_cases h1 : cancAt c p = true
      · simp [h1]
      · simp only [h1, if_false, Bool.not_eq_true] at *
        by_cases h2 : data.length < 4
        · simp [h1, h2]
        · simp only [h1, h2, Bool.false_eq_true, if_false]
          by_cases h3 : data.length < le32dec (data.take 4) + 4
          · simp [h3]
          · simp only [h3, if_false]
            by_cases h4 : cancAt c (p + 1) = true
            · simp [h4]
            · simp only [h4, Bool.false_eq_true, if_false, Bool.not_eq_true] at *
              cases hum : um ((data.drop 4).take (le32dec (data.take 4))) with
              | none => rfl
              | some pbr =>
                simp only []
                by_cases h5 : fn i (decodeRecord pbr) = true
                · simp only [h5, if_true]
                  refine ih m' (p + 2) (i + 1) (acc ++ [decodeRecord pbr]) _ ?_ ?_
                  · rw [List.length_drop]; omega
                  · rw [List.length_drop]; omega
                · simp [h5]

theorem handleFrame_length (b : List Nat) :
    (handleFrame b).length = 4 + b.length := by
  simp [handleFrame, le32enc]
  omega

theorem runReadAux_frame (c : Option Nat) (um : List Nat → Option PBRecord)
    (fn : Nat → SlogRecord → Bool) (b rest : List Nat) (p i : Nat)
    (acc : List SlogRecord) (n : Nat)
    (hb : b.length < 2 ^ 32)
    (hn : (handleFrame b ++ rest).length < n)
    (hc0 : cancAt c p = false) (hc1 : cancAt c (p + 1) = false) :
    runReadAux c um fn n p i acc (handleFrame b ++ rest) =
      match um b with
      | none => (acc, .unmarshalErr)
      | some pbr =>
        if fn i (decodeRecord pbr) then
          runReadAux c um fn (rest.length + 1) (p + 2) (i + 1) (acc ++ [decodeRecord pbr]) rest
        else (acc ++ [decodeRecord pbr], if cancAt c (p + 2) then .canceled else .ok) := by
  have hlen : (handleFrame b ++ rest).length = 4 + b.length + rest.length := by
    rw [List.length_append, handleFrame_length]
  have htake : (handleFrame b ++ rest).take 4 = le32enc b.length := by
    show ((le32enc b.length ++ b) ++ rest).take 4 = le32enc b.length
    rw [List.append_assoc, show (4 : Nat) = (le32enc b.length).length from rfl,
      List.take_left]
  have hsize : le32dec ((handleFrame b ++ rest).take 4) = b.length := by
    rw [htake]
    exact le32_roundtrip _ hb
  have hdrop4 : (handleFrame b ++ rest).drop 4 = b ++ rest := by
    show ((le32enc b.length ++ b) ++ rest).drop 4 = b ++ rest
    rw [List.append_assoc, show (4 : Nat) = (le32enc b.length).length from rfl,
      List.drop_left]
  have htakeb : (b ++ rest).take b.length = b := List.take_left _ _
  have hdropfull : (handleFrame b ++ rest).drop (b.length + 4) = rest := by
    show ((le32enc b.length ++ b) ++ rest).drop (b.length + 4) = rest
    rw [List.append_assoc]
    have h4 : b.length + 4 = (le32enc b.length).length + b.length := by
      simp [le32enc]
      omega
    rw [h4, List.drop_append, List.drop_left]
  cases n with
  | zero => exact absurd hn (Nat.not_lt_zero _)
  | succ n' =>
    rw [runReadAux_succ]
    rw [if_neg (by simp [hc0])]
    rw [if_neg (by omega : ¬(handleFrame b ++ rest).length < 4)]
    simp only [hsize]
    rw [if_neg (by omega : ¬(handleFrame b ++ rest).length < b.length + 4)]
    rw [if_neg (by simp [hc1])]
    rw [hdrop4, htakeb]
    cases hum : um b with
    | none => rfl
    | some pbr =>
      simp only []
      by_cases hfn : fn i (decodeRecord pbr) = true
      · simp only [hfn, if_true, hdropfull]
        refine runReadAux_fuel c um fn n' (rest.length + 1) (p + 2) (i + 1)
          (acc ++ [decodeRecord pbr]) rest ?_ ?_
        · omega
        · omega
      · simp [hfn]

/-- Claim C3 (counterexample): a stream ending mid-frame with three trailing
bytes (too few for a length prefix) is not reported as a truncation error:
Read finishes cleanly with no records and no error, although the trailing
bytes are not empty. -/
theorem c3_claim_counterexample :
    runRead none (fun _ => none) (fun _ _ => false) [1, 2, 3] = ([], .ok) ∧
      ([1, 2, 3] : List Nat) ≠ [] :=
  ⟨rfl, by decide⟩

/-- Claim C3 (amended): at end of input, both a 1-to-3-byte trailing fragment
and a declared length whose payload never fully arrives are treated as a
clean end of stream: the scan stops, the trailing bytes are silently
discarded, and Read returns no error whether or not they are empty.  The
second conjunct states the same for the loop in any mid-stream state. -/
theorem c3_truncation_amended (um : List Nat → Option PBRecord)
    (fn : Nat → SlogRecord → Bool) (data : List Nat)
    (h : data.length < 4 ∨ data.length < le32dec (data.take 4) + 4) :
    runRead none um fn data = ([], .ok) ∧
      ∀ (n p i : Nat) (acc : List SlogRecord),
        runReadAux none um fn (n + 1) p i acc data = (acc, .ok) := by
  have key : ∀ (n p i : Nat) (acc : List SlogRecord),
      runReadAux none um fn (n + 1) p i acc data = (acc, .ok) := by
    intro n p i acc
    rw [runReadAux_succ]
    rw [if_neg (by simp [cancAt_none])]
    rcases Nat.lt_or_ge data.length 4 with h4 | h4
    · rw [if_pos h4]
      simp [cancAt_none]
    · rw [if_neg (by omega)]
      have hsz : data.length < le32dec (data.take 4) + 4 := by
        rcases h with h' | h'
        · omega
        · exact h'
      simp only []
      rw [if_pos hsz]
      simp [cancAt_none]
  exact ⟨key data.length 0 0 [], key⟩

/-- Witness for the amended claim C3 at a concrete two-byte truncated
stream. -/
theorem c3_truncation_amended_witness :
    (([6, 7] : List Nat).length < 4 ∨
        ([6, 7] : List Nat).length < le32dec (([6, 7] : List Nat).take 4) + 4) ∧
      runRead none (fun _ => none) (fun _ _ => true) [6, 7] = ([], .ok) :=
  ⟨Or.inl (by decide),
    (c3_truncation_amended (fun _ => none) (fun _ _ => true) [6, 7] (Or.inl (by decide))).1⟩

theorem runRead_frames_stop (um : List Nat → Option PBRecord)
    (fn : Nat → SlogRecord → Bool) :
    ∀ (fs : List (List Nat × PBRecord)) (p i : Nat) (acc : List SlogRecord)
      (rest : List Nat),
      fs ≠ [] →
      (∀ x ∈ fs, x.1.length < 2 ^ 32 ∧ um x.1 = some x.2) →
      (∀ j (hj : j < fs.length),
        fn (i + j) (decodeRecord (fs.get ⟨j, hj⟩).2) = decide (j + 1 < fs.length)) →
      runReadAux none um fn ((framesThen (fs.map Prod.fst) rest).length + 1) p i acc
          (framesThen (fs.map Prod.fst) rest)
        = (acc ++ fs.map fun x => decodeRecord x.2, .ok) := by
  intro fs
  induction fs with
  | nil => intro _ _ _ _ hne; exact absurd rfl hne
  | cons x fs' ih =>
    intro p i acc rest _ hfr hfn
    obtain ⟨hblen, hum⟩ := hfr x (List.mem_cons_self _ _)
    have hframe : framesThen ((x :: fs').map Prod.fst) rest
        = handleFrame x.1 ++ framesThen (fs'.map Prod.fst) rest := rfl
    rw [hframe]
    rw [runReadAux_frame none um fn x.1 (framesThen (fs'.map Prod.fst) rest) p i acc _
      hblen (Nat.lt_succ_self _) (cancAt_none _) (cancAt_none _)]
    rw [hum]
    simp only []
    have hfn0 := hfn 0 (by simp)
    cases fs' with
    | nil =>
      have hfalse : fn i (decodeRecord x.2) = false := by simpa using hfn0
      rw [if_neg (by simp [hfalse])]
      simp [cancAt_none]
    | cons y fs'' =>
      have htrue : fn i (decodeRecord x.2) = true := by simpa using hfn0
      rw [if_pos htrue]
      rw [ih (p + 2) (i + 1) (acc ++ [decodeRecord x.2]) rest (by simp)
        (fun x' hm => hfr x' (List.mem_cons_of_mem _ hm)) ?_]
      · simp
      · intro j hj
        have hstep := hfn (j + 1) (by simpa using Nat.succ_lt_succ hj)
        have hidx : i + (j + 1) = (i + 1) + j := by omega
        rw [hidx] at hstep
        have hget : (x :: y :: fs'').get ⟨j + 1, by simpa using Nat.succ_lt_succ hj⟩
            = (y :: fs'').get ⟨j, hj⟩ := rfl
        rw [hget] at hstep
        rw [hstep]
        refine decide_eq_decide.mpr ?_
        simp only [List.length_cons]
        omega

/-- Claim C6: for a stream beginning with k well-formed frames whose payloads
all unmarshal, if the callback returns true on each of the first k-1 decoded
records and false (stop) on the k-th, Read invokes the callback on exactly
the k decoded records, in stream order, and returns no error — whatever
bytes follow the k-th frame. -/
theorem c6_early_stop (um : List Nat → Option PBRecord) (fn : Nat → SlogRecord → Bool)
    (fs : List (List Nat × PBRecord)) (rest : List Nat) (k : Nat)
    (hk : fs.length = k) (hne : fs ≠ [])
    (hfr : ∀ x ∈ fs, x.1.length < 2 ^ 32 ∧ um x.1 = some x.2)
    (hfn : ∀ j (hj : j < fs.length),
      fn j (decodeRecord (fs.get ⟨j, hj⟩).2) = decide (j + 1 < k)) :
    runRead none um fn (framesThen (fs.map Prod.fst) rest)
        = (fs.map fun x => decodeRecord x.2, .ok) ∧
      (fs.map fun x => decodeRecord x.2).length = k := by
  subst hk
  refine ⟨?_, by simp⟩
  have haux := runRead_frames_stop um fn fs 0 0 [] rest hne hfr (by simpa using hfn)
  show runReadAux none um fn ((framesThen (fs.map Prod.fst) rest).length + 1) 0 0 []
      (framesThen (fs.map Prod.fst) rest) = _
  simpa using haux

/-- Witness for claim C6: one empty-payload frame followed by a garbage byte,
with a callback that stops immediately. -/
theorem c6_early_stop_witness :
    ([(([] : List Nat), PBRecord.mk none "w" Level.info [])] : List (List Nat × PBRecord))
        ≠ [] ∧
      runRead none
          (fun b => if b.isEmpty then some (PBRecord.mk none "w" Level.info []) else none)
          (fun _ _ => false)
          (framesThen ([(([] : List Nat), PBRecord.mk none "w" Level.info [])].map Prod.fst)
            [9])
        = ([decodeRecord (PBRecord.mk none "w" Level.info [])], .ok) := by
  constructor
  · simp
  · exact (c6_early_stop
      (fun b => if b.isEmpty then some (PBRecord.mk none "w" Level.info []) else none)
      (fun _ _ => false) [(([] : List Nat), PBRecord.mk none "w" Level.info [])] [9] 1 rfl
      (by simp)
      (by
        intro x hx
        simp only [List.mem_singleton] at hx
        subst hx
        exact ⟨by decide, rfl⟩)
      (by
        intro j hj
        simp only [List.length_singleton] at hj
        have hj0 : j = 0 := by omega
        subst hj0
        rfl)).1

theorem runRead_frames_cancel (um : List Nat → Option PBRecord)
    (fn : Nat → SlogRecord → Bool) :
    ∀ (fs : List (List Nat × PBRecord)) (p i : Nat) (acc : List SlogRecord)
      (tail : List Nat) (t : Nat),
      (∀ x ∈ fs, x.1.length < 2 ^ 32 ∧ um x.1 = some x.2) →
      (∀ j (hj : j < fs.length), fn (i + j) (decodeRecord (fs.get ⟨j, hj⟩).2) = true) →
      (t = p + 2 * fs.length ∨ t = p + 2 * fs.length + 1) →
      runReadAux (some t) um fn ((framesThen (fs.map Prod.fst) tail).length + 1) p i acc
          (framesThen (fs.map Prod.fst) tail)
        = (acc ++ fs.map fun x => decodeRecord x.2, .canceled) := by
  intro fs
  induction fs with
  | nil =>
    intro p i acc tail t _ _ ht
    simp only [List.map_nil, framesThen, List.length_nil, Nat.mul_zero, Nat.add_zero] at *
    rw [runReadAux_succ]
    rcases ht with rfl | rfl
    · rw [if_pos (by simp [cancAt_some])]
      simp
    · rw [if_neg (by simp [cancAt_some])]
      have hc1 : cancAt (some (p + 1)) (p + 1) = true := by simp [cancAt_some]
      by_cases h4 : tail.length < 4
      · rw [if_pos h4, hc1]
        simp
      · rw [if_neg h4]
        simp only []
        by_cases hsz : tail.length < le32dec (tail.take 4) + 4
        · rw [if_pos hsz, hc1]
          simp
        · rw [if_neg hsz, if_pos hc1]
          simp
  | cons x fs' ih =>
    intro p i acc tail t hfr hfn ht
    obtain ⟨hblen, hum⟩ := hfr x (List.mem_cons_self _ _)
    have hframe : framesThen ((x :: fs').map Prod.fst) tail
        = handleFrame x.1 ++ framesThen (fs'.map Prod.fst) tail := rfl
    have htlow : p + 2 ≤ t := by
      simp only [List.length_cons] at ht
      omega
    rw [hframe]
    rw [runReadAux_frame (some t) um fn x.1 (framesThen (fs'.map Prod.fst) tail) p i acc _
      hblen (Nat.lt_succ_self _) (by simp [cancAt_some]; omega) (by simp [cancAt_some]; omega)]
    rw [hum]
    simp only []
    have htrue : fn i (decodeRecord x.2) = true := by simpa using hfn 0 (by simp)
    rw [if_pos htrue]
    rw [ih (p + 2) (i + 1) (acc ++ [decodeRecord x.2]) tail t
      (fun x' hm => hfr x' (List.mem_cons_of_mem _ hm)) ?_ ?_]
    · simp
    · intro j hj
      have hstep := hfn (j + 1) (by simpa using Nat.succ_lt_succ hj)
      have hidx : i + (j + 1) = (i + 1) + j := by omega
      rw [hidx] at hstep
      have hget : (x :: fs').get ⟨j + 1, by simpa using Nat.succ_lt_succ hj⟩
          = fs'.get ⟨j, hj⟩ := rfl
      rw [hget] at hstep
      exact hstep
    · simp only [List.length_cons] at ht
      omega

/-- Claim C9: cancellation is polled in the frame splitter before extracting
each frame (poll 2j for frame j) and in the loop condition before
unmarshalling each payload (poll 2j + 1).  If the signal becomes visible at
either poll of frame k, Read stops with the cancellation as its outcome,
having invoked the callback on exactly the first k records — whatever the
remaining bytes are, including an undecodable payload, so cancellation wins
over any decode error. -/
theorem c9_cancellation (um : List Nat → Option PBRecord) (fn : Nat → SlogRecord → Bool)
    (fs : List (List Nat × PBRecord)) (tail : List Nat) (t k : Nat)
    (hk : fs.length = k)
    (hfr : ∀ x ∈ fs, x.1.length < 2 ^ 32 ∧ um x.1 = some x.2)
    (hfn : ∀ j (hj : j < fs.length), fn j (decodeRecord (fs.get ⟨j, hj⟩).2) = true)
    (ht : t = 2 * k ∨ t = 2 * k + 1) :
    runRead (some t) um fn (framesThen (fs.map Prod.fst) tail)
      = (fs.map fun x => decodeRecord x.2, .canceled) := by
  subst hk
  have haux := runRead_frames_cancel um fn fs 0 0 [] tail t hfr (by simpa using hfn)
    (by omega)
  show runReadAux (some t) um fn ((framesThen (fs.map Prod.fst) tail).length + 1) 0 0 []
      (framesThen (fs.map Prod.fst) tail) = _
  simpa using haux

/-- Witness for claim C9: one well-formed empty-payload frame, cancellation
visible at the poll before extracting the second frame, and a garbage tail
that can never be unmarshalled. -/
theorem c9_cancellation_witness :
    (2 = 2 * ([(([] : List Nat), PBRecord.mk none "w" Level.info [])]
          : List (List Nat × PBRecord)).length ∨
        2 = 2 * ([(([] : List Nat), PBRecord.mk none "w" Level.info [])]
          : List (List Nat × PBRecord)).length + 1) ∧
      runRead (some 2)
          (fun b => if b.isEmpty then some (PBRecord.mk none "w" Level.info []) else none)
          (fun _ _ => true)
          (framesThen ([(([] : List Nat), PBRecord.mk none "w" Level.info [])].map Prod.fst)
            [1, 2, 3])
        = ([decodeRecord (PBRecord.mk none "w" Level.info [])], .canceled) :=
  ⟨Or.inl (by decide),
    c9_cancellation
      (fun b => if b.isEmpty then some (PBRecord.mk none "w" Level.info []) else none)
      (fun _ _ => true) [(([] : List Nat), PBRecord.mk none "w" Level.info [])] [1, 2, 3] 2 1
      rfl
      (by
        intro x hx
        simp only [List.mem_singleton] at hx
        subst hx
        exact ⟨by decide, rfl⟩)
      (by
        intro j hj
        simp only [List.length_singleton] at hj
        have hj0 : j = 0 := by omega
        subst hj0
        rfl)
      (Or.inl rfl)⟩

end Slogproto
